import Mathlib

/-!
Verification of the SequenceExample feature encoder
(`src/sequence-example-builder.js`) of the
tensorflow-serving-grpc-nodejs repository.

The encoder `buildSequenceExample` walks a plain key → value-list mapping,
classifies each value by its JavaScript runtime type (string / integral
number / fractional number / Buffer), wraps each value into a `Feature`
record, collects the records per key into a `FeatureList`, and serializes
the resulting `tensorflow.SequenceExample` message (context absent,
`feature_lists` present) with protobufjs.  `toHex` renders the produced
bytes as a lowercase hex string.

The wire schema (`proto/example.proto`) is the standard TensorFlow
`SequenceExample` schema: SequenceExample.feature_lists is field 2,
FeatureLists.feature_list is a map at field 1, FeatureList.feature is
repeated field 1, Feature is a oneof with bytes_list = 1, float_list = 2,
int64_list = 3, and the three leaf lists each use field 1 (floats and
int64s packed).
-/

namespace TFSE

/-! ## JavaScript runtime values

A JavaScript number is an IEEE-754 double.  The encoder only interrogates
a number through `Number.isInteger` and, on the float branch, through the
single-precision narrowing performed by the protobuf float writer, so a
number is modelled by which of those classes it falls into:
`int n` is a finite double on which `Number.isInteger` returns `true`
(carrying its integral value), `frac bits` is a finite double on which
`Number.isInteger` returns `false` (carrying the 32-bit IEEE-754 pattern
of its single-precision narrowing), and `nan` / `inf` / `negInf` are the
non-finite doubles, on all of which `Number.isInteger` returns `false`. -/
inductive JSNumber where
  | int (n : Int)
  | frac (bits : Nat)
  | nan
  | inf
  | negInf
deriving DecidableEq

/-- `Number.isInteger`: true exactly on finite integral doubles. -/
def JSNumber.isInteger : JSNumber → Bool
  | .int _ => true
  | _ => false

/-- The integral value of a number; only consulted on the `int` branch. -/
def JSNumber.intValue : JSNumber → Int
  | .int n => n
  | _ => 0

/-- The 32-bit IEEE-754 pattern written by the protobuf float writer:
for a finite fractional double the bits of its single-precision
narrowing (carried by the `frac` constructor), for `NaN` the canonical
quiet NaN `0x7fc00000`, for the infinities `0x7f800000` / `0xff800000`.
Integral doubles never reach the float branch of the encoder. -/
def JSNumber.float32Bits : JSNumber → Nat
  | .int _ => 0
  | .frac bits => bits % 2 ^ 32
  | .nan => 0x7fc00000
  | .inf => 0x7f800000
  | .negInf => 0xff800000

/-- A JavaScript value as seen by the encoder: a string, a number, a
Buffer (byte blob), or anything else (carrying its `typeof` string). -/
inductive JSValue where
  | str (s : String)
  | num (n : JSNumber)
  | buf (bytes : List Nat)
  | other (typeName : String)
deriving DecidableEq

/-- The JavaScript `typeof` operator on a value. -/
def JSValue.typeofName : JSValue → String
  | .str _ => "string"
  | .num _ => "number"
  | .buf _ => "object"
  | .other t => t

/-- Whether a value is handled by one of the encoder's branches
(string, number, Buffer); everything else throws. -/
def JSValue.supported : JSValue → Bool
  | .other _ => false
  | _ => true

/-! ## UTF-8 (`Buffer.from(s, 'utf-8')`) -/

/-- Standard UTF-8 encoding of one scalar value. -/
def charUtf8 (c : Char) : List Nat :=
  let n := c.toNat
  if n < 0x80 then [n]
  else if n < 0x800 then [0xc0 + n / 64, 0x80 + n % 64]
  else if n < 0x10000 then [0xe0 + n / 4096, 0x80 + n / 64 % 64, 0x80 + n % 64]
  else [0xf0 + n / 262144, 0x80 + n / 4096 % 64, 0x80 + n / 64 % 64, 0x80 + n % 64]

/-- UTF-8 bytes of a string, as produced by `Buffer.from(s, 'utf-8')`. -/
def utf8Bytes (s : String) : List Nat :=
  s.data.flatMap charUtf8

/-! ## The intermediate `Feature` structure built by the encoder -/

/-- One `tensorflow.Feature` record: exactly one of the three kinds is
set.  Float values are carried as their 32-bit IEEE-754 patterns. -/
inductive Feature where
  | bytesList (values : List (List Nat))
  | floatList (bits : List Nat)
  | int64List (values : List Int)
deriving DecidableEq

/-- The single error the encoder can raise:
`Unsupported value type for key "<key>": <typeof value>`. -/
inductive EncodeError where
  | unsupportedValueType (key : String) (typeName : String)
deriving DecidableEq

/-- The message string of the thrown `Error`. -/
def EncodeError.message : EncodeError → String
  | .unsupportedValueType k t =>
      "Unsupported value type for key \"" ++ k ++ "\": " ++ t

/-- The type dispatch of `buildSequenceExample` (lines 50–84 of
`src/sequence-example-builder.js`): a string becomes a `bytesList` of its
UTF-8 bytes, a number becomes an `int64List` when `Number.isInteger`
holds and a `floatList` otherwise, a Buffer becomes a `bytesList` of its
bytes verbatim, and anything else throws. -/
def buildFeature (key : String) (v : JSValue) : Except EncodeError Feature :=
  match v with
  | .str s => .ok (.bytesList [utf8Bytes s])
  | .num n =>
      if n.isInteger then .ok (.int64List [n.intValue])
      else .ok (.floatList [n.float32Bits])
  | .buf b => .ok (.bytesList [b])
  | .other t => .error (.unsupportedValueType key t)

/-- `values.map(...)` over one key's value list; JavaScript's `map`
visits values left to right and the first unsupported value throws. -/
def buildFeatureList (key : String) : List JSValue → Except EncodeError (List Feature)
  | [] => .ok []
  | v :: vs => do
      let f ← buildFeature key v
      let fs ← buildFeatureList key vs
      pure (f :: fs)

/-- The `for (const [key, values] of Object.entries(...))` loop: keys in
iteration order, each value list mapped through the type dispatch. -/
def buildFeatureMap : List (String × List JSValue) → Except EncodeError (List (String × List Feature))
  | [] => .ok []
  | (k, vs) :: rest => do
      let fs ← buildFeatureList k vs
      let m ← buildFeatureMap rest
      pure ((k, fs) :: m)

/-! ## Protobuf wire encoding

Modelled from the spec: the repository's `proto/example.proto` is not
under `src/`, so the schema (field numbers and nesting) is taken from
spec §6, and the length-delimited / varint wire encoding is the standard
protobuf encoding performed by the external protobufjs library.  The
expected bytes are cross-checked against the pinned fixtures in
`src/tests/test-serialization.js`. -/

/-- Worker for `varint`, structurally recursive on a fuel bound so that
concrete encodings reduce inside the kernel; the bound is immaterial as
long as it is at least the argument (`varintGo_congr` below). -/
def varintGo : Nat → Nat → List Nat
  | 0, n => [n % 128]
  | fuel + 1, n => if n < 128 then [n] else (n % 128 + 128) :: varintGo fuel (n / 128)

/-- Little-endian base-128 varint of a natural number. -/
def varint (n : Nat) : List Nat :=
  varintGo n n

/-- A length-delimited field: tag byte, varint byte length, payload. -/
def lenDelim (tag : Nat) (payload : List Nat) : List Nat :=
  tag :: varint payload.length ++ payload

/-- Little-endian 4-byte encoding of a 32-bit float pattern. -/
def le4 (bits : Nat) : List Nat :=
  [bits % 256, bits / 256 % 256, bits / 65536 % 256, bits / 16777216 % 256]

/-- The 64-bit wire image of an int64 value (two's complement). -/
def wire64 (i : Int) : Nat :=
  (i % 2 ^ 64).toNat

/-- Varint encoding of an int64 value (negative values sign-extend to
ten bytes, as protobufjs's LongBits conversion does). -/
def varint64 (i : Int) : List Nat :=
  varint (wire64 i)

/-- `BytesList`: each value is a `bytes` field 1 occurrence. -/
def encodeBytesList (vs : List (List Nat)) : List Nat :=
  (vs.map (fun b => lenDelim 10 b)).flatten

/-- `FloatList`: packed field 1 of little-endian 4-byte floats
(an empty list writes nothing). -/
def encodeFloatList (bits : List Nat) : List Nat :=
  if bits.isEmpty then [] else lenDelim 10 (bits.map le4).flatten

/-- `Int64List`: packed field 1 of varints (an empty list writes
nothing). -/
def encodeInt64List (vs : List Int) : List Nat :=
  if vs.isEmpty then [] else lenDelim 10 (vs.map varint64).flatten

/-- `Feature`: the set oneof member — bytes_list = 1, float_list = 2,
int64_list = 3 — as a length-delimited submessage. -/
def encodeFeature : Feature → List Nat
  | .bytesList vs => lenDelim 10 (encodeBytesList vs)
  | .floatList bits => lenDelim 18 (encodeFloatList bits)
  | .int64List vs => lenDelim 26 (encodeInt64List vs)

/-- `FeatureList`: each record is a `feature` field 1 occurrence. -/
def encodeFeatureList (fs : List Feature) : List Nat :=
  (fs.map (fun f => lenDelim 10 (encodeFeature f))).flatten

/-- One map entry of `FeatureLists.feature_list`: key string at field 1,
`FeatureList` message at field 2, wrapped as a field 1 submessage. -/
def entryBytes (kv : String × List Feature) : List Nat :=
  lenDelim 10 (lenDelim 10 (utf8Bytes kv.1) ++ lenDelim 18 (encodeFeatureList kv.2))

/-- The serialized `SequenceExample`: the `FeatureLists` message (the
concatenated map entries) wrapped in the envelope's field 2; the context
field 1 is never written. -/
def encodeSequenceExample (m : List (String × List Feature)) : List Nat :=
  lenDelim 18 (m.map entryBytes).flatten

/-- `buildSequenceExample`: build the feature map (which may throw), then
serialize.  Serialization happens only after the whole map is built, so
an unsupported value yields an error before any bytes exist. -/
def buildSequenceExample (input : List (String × List JSValue)) : Except EncodeError (List Nat) :=
  (buildFeatureMap input).map encodeSequenceExample

/-! ## `toHex` (`buffer.toString('hex')`) -/

/-- The lowercase hex digit for a value below 16. -/
def hexDigitChar (n : Nat) : Char :=
  if n < 10 then Char.ofNat (48 + n) else Char.ofNat (87 + n)

/-- Two lowercase hex characters for one byte. -/
def byteToHex (b : Nat) : String :=
  String.mk [hexDigitChar (b / 16), hexDigitChar (b % 16)]

/-- `toHex`: the concatenation of the per-byte hex pairs, which is what
`buffer.toString('hex')` produces. -/
def toHex : List Nat → String
  | [] => ""
  | b :: rest => byteToHex b ++ toHex rest

/-! ## A standards-conformant decoder for the same schema

Used to state the round-trip property: it parses the wire bytes back
into the nested structure.  Feature names stay as their wire-level UTF-8
byte sequences; float records stay as 32-bit patterns; int64 records are
read back as two's-complement integers.  Loops over repeated elements
are fuelled; the callers pass the byte length, which suffices because
every loop iteration consumes at least one byte. -/

/-- A decoded `tensorflow.Feature` record. -/
inductive DFeature where
  | bytes (values : List (List Nat))
  | floats (bits : List Nat)
  | ints (values : List Int)
deriving DecidableEq

/-- Read one little-endian base-128 varint. -/
def parseVarint : List Nat → Option (Nat × List Nat)
  | [] => none
  | b :: rest =>
      if b < 128 then some (b, rest)
      else
        match parseVarint rest with
        | some (n, r) => some (b % 128 + 128 * n, r)
        | none => none

/-- Read exactly `len` bytes. -/
def parseBytes (len : Nat) (bs : List Nat) : Option (List Nat × List Nat) :=
  if len ≤ bs.length then some (bs.take len, bs.drop len) else none

/-- Read a length-delimited field with the given tag byte: the tag, a
varint length, and that many payload bytes. -/
def parseLenDelim (tag : Nat) : List Nat → Option (List Nat × List Nat)
  | [] => none
  | t :: rest =>
      if t = tag then
        match parseVarint rest with
        | some (len, r) => parseBytes len r
        | none => none
      else none

/-- Two's-complement reading of a 64-bit wire value. -/
def int64OfWire (n : Nat) : Int :=
  if n < 2 ^ 63 then (n : Int) else (n : Int) - 2 ^ 64

/-- Read a packed run of varints until the bytes are exhausted. -/
def parseVarints : Nat → List Nat → Option (List Nat)
  | _, [] => some []
  | 0, _ :: _ => none
  | fuel + 1, b :: rest =>
      match parseVarint (b :: rest) with
      | some (n, r) => (parseVarints fuel r).map (fun ns => n :: ns)
      | none => none

/-- Read a packed run of little-endian 4-byte floats. -/
def parseFloats : Nat → List Nat → Option (List Nat)
  | _, [] => some []
  | 0, _ :: _ => none
  | fuel + 1, b0 :: b1 :: b2 :: b3 :: rest =>
      (parseFloats fuel rest).map
        (fun ns => (b0 + 256 * b1 + 65536 * b2 + 16777216 * b3) :: ns)
  | _ + 1, _ => none

/-- Read the repeated `bytes value = 1` fields of a `BytesList` body. -/
def parseBytesValues : Nat → List Nat → Option (List (List Nat))
  | _, [] => some []
  | 0, _ :: _ => none
  | fuel + 1, b :: rest =>
      match parseLenDelim 10 (b :: rest) with
      | some (v, r) => (parseBytesValues fuel r).map (fun vs => v :: vs)
      | none => none

/-- Decode a `Feature` message body: exactly one oneof member —
bytes_list (tag 10), float_list (tag 18) or int64_list (tag 26) —
whose payload fills the body; the leaf list is a packed field 1 (or
absent, for an empty list). -/
def parseFeature (bs : List Nat) : Option DFeature :=
  match parseLenDelim 10 bs with
  | some (payload, r) =>
      if r = [] then (parseBytesValues payload.length payload).map DFeature.bytes
      else none
  | none =>
  match parseLenDelim 18 bs with
  | some (payload, r) =>
      if r = [] then
        match parseLenDelim 10 payload with
        | some (inner, r2) =>
            if r2 = [] then (parseFloats inner.length inner).map DFeature.floats
            else none
        | none => if payload = [] then some (DFeature.floats []) else none
      else none
  | none =>
  match parseLenDelim 26 bs with
  | some (payload, r) =>
      if r = [] then
        match parseLenDelim 10 payload with
        | some (inner, r2) =>
            if r2 = [] then
              (parseVarints inner.length inner).map
                (fun ns => DFeature.ints (ns.map int64OfWire))
            else none
        | none => if payload = [] then some (DFeature.ints []) else none
      else none
  | none => none

/-- Read the repeated `feature = 1` records of a `FeatureList` body. -/
def parseFeatureRecords : Nat → List Nat → Option (List DFeature)
  | _, [] => some []
  | 0, _ :: _ => none
  | fuel + 1, b :: rest =>
      match parseLenDelim 10 (b :: rest) with
      | some (payload, r) =>
          match parseFeature payload with
          | some f => (parseFeatureRecords fuel r).map (fun fs => f :: fs)
          | none => none
      | none => none

/-- Decode one map-entry body: the key string at field 1, then the
`FeatureList` message at field 2. -/
def parseEntry (bs : List Nat) : Option (List Nat × List DFeature) :=
  match parseLenDelim 10 bs with
  | some (key, r) =>
      match parseLenDelim 18 r with
      | some (payload, r2) =>
          if r2 = [] then
            (parseFeatureRecords payload.length payload).map (fun fs => (key, fs))
          else none
      | none => none
  | none => none

/-- Read the repeated map entries of a `FeatureLists` body. -/
def parseEntries : Nat → List Nat → Option (List (List Nat × List DFeature))
  | _, [] => some []
  | 0, _ :: _ => none
  | fuel + 1, b :: rest =>
      match parseLenDelim 10 (b :: rest) with
      | some (payload, r) =>
          match parseEntry payload with
          | some e => (parseEntries fuel r).map (fun es => e :: es)
          | none => none
      | none => none

/-- Decode a serialized `SequenceExample`: the `feature_lists` wrapper
at field 2 holding the map entries. -/
def decodeSequenceExample (bs : List Nat) : Option (List (List Nat × List DFeature)) :=
  match parseLenDelim 18 bs with
  | some (body, r) => if r = [] then parseEntries body.length body else none
  | none => none

/-- The generic top-level field scanner: reads the message as a sequence
of tagged fields (varint tag; wire type 0 skips a varint, wire type 2
skips a length-delimited payload) and returns the field numbers in
order. -/
def topLevelFieldsLoop : Nat → List Nat → Option (List Nat)
  | _, [] => some []
  | 0, _ :: _ => none
  | fuel + 1, b :: rest =>
      match parseVarint (b :: rest) with
      | some (tag, r) =>
          if tag % 8 = 2 then
            match parseVarint r with
            | some (len, r2) =>
                match parseBytes len r2 with
                | some (_, r3) => (topLevelFieldsLoop fuel r3).map (fun fs => tag / 8 :: fs)
                | none => none
            | none => none
          else if tag % 8 = 0 then
            match parseVarint r with
            | some (_, r2) => (topLevelFieldsLoop fuel r2).map (fun fs => tag / 8 :: fs)
            | none => none
          else none
      | none => none

/-- The field numbers present at the top level of a wire message. -/
def topLevelFields (bs : List Nat) : Option (List Nat) :=
  topLevelFieldsLoop bs.length bs

/-! ## Abstraction maps used by the round-trip statements -/

/-- The decoder's image of one built `Feature` record. -/
def featureImage : Feature → DFeature
  | .bytesList vs => .bytes vs
  | .floatList bits => .floats (bits.map (· % 2 ^ 32))
  | .int64List vs => .ints (vs.map (fun i => int64OfWire (wire64 i)))

/-- The pure classifier underlying `buildFeature` on supported values
(the `other` case never occurs on a successful encode). -/
def featureOfValue : JSValue → Feature
  | .str s => .bytesList [utf8Bytes s]
  | .num n => if n.isInteger then .int64List [n.intValue] else .floatList [n.float32Bits]
  | .buf b => .bytesList [b]
  | .other _ => .bytesList []

/-- Bool check that every value of the input is of a supported runtime
type. -/
def allSupported (input : List (String × List JSValue)) : Bool :=
  input.all (fun kv => kv.2.all (fun v => v.supported))

/-- Bool check that every integral numeric value fits in a signed 64-bit
integer (JavaScript safe integers always do). -/
def okInt64 : JSValue → Bool
  | .num (.int m) => decide (-(2 ^ 63 : Int) ≤ m ∧ m < 2 ^ 63)
  | _ => true

/-- Bool check over the whole input. -/
def allInt64InRange (input : List (String × List JSValue)) : Bool :=
  input.all (fun kv => kv.2.all okInt64)

/-- What a conformant decoder recovers from one input value: the
byte-string, integer, or (narrowed) float content the spec's round-trip
property promises. -/
def jsValueImage : JSValue → DFeature
  | .str s => .bytes [utf8Bytes s]
  | .num (.int m) => .ints [m]
  | .num n => .floats [n.float32Bits]
  | .buf b => .bytes [b]
  | .other _ => .bytes []

/-- The decoder's view of the whole input: same keys (as their UTF-8
bytes) in the same order, one record per input value in input order. -/
def inputImage (input : List (String × List JSValue)) : List (List Nat × List DFeature) :=
  input.map (fun kv => (utf8Bytes kv.1, kv.2.map jsValueImage))

/-- The feature map built by a successful encode: every value classified
by the pure dispatch, keys in iteration order. -/
def pureMap (input : List (String × List JSValue)) : List (String × List Feature) :=
  input.map (fun kv => (kv.1, kv.2.map featureOfValue))

/-- The per-key byte blocks of the map encoding of an input. -/
def blocksOf (input : List (String × List JSValue)) : List (List Nat) :=
  (pureMap input).map entryBytes

/-- The spec's classification table (§4.1, restated from the spec's
words, for comparison with the code's dispatch): a text value maps to
the byte-string kind holding its UTF-8 bytes exactly as given; a
numeric value with no fractional part to the 64-bit-integer kind; a
numeric value with a fractional part to the 32-bit-float kind; a binary
blob to the byte-string kind verbatim. -/
def SpecKind : JSValue → Feature → Prop
  | .str s, .bytesList vs => vs = [utf8Bytes s]
  | .num n, .int64List vs => n.isInteger = true ∧ vs = [n.intValue]
  | .num n, .floatList bs => n.isInteger = false ∧ bs = [n.float32Bits]
  | .buf b, .bytesList vs => vs = [b]
  | _, _ => False

/-- The first `(key, typeof)` pair of an unsupported value within one
key's value list, in value order. -/
def firstUnsupportedIn (key : String) : List JSValue → Option (String × String)
  | [] => none
  | v :: vs =>
      if v.supported then firstUnsupportedIn key vs
      else some (key, v.typeofName)

/-- The first `(key, typeof)` pair of an unsupported value of the whole
input, in iteration order — the datum the thrown error reports. -/
def firstUnsupported : List (String × List JSValue) → Option (String × String)
  | [] => none
  | (k, vs) :: rest =>
      match firstUnsupportedIn k vs with
      | some e => some e
      | none => firstUnsupported rest

/-- A concrete two-key example input (used to witness the map-order
properties). -/
def exInputA : List (String × List JSValue) :=
  [("a", [JSValue.str "x"]), ("b", [JSValue.num (JSNumber.int 1)])]

/-- The same logical map as `exInputA` with the opposite insertion
order. -/
def exInputB : List (String × List JSValue) :=
  [("b", [JSValue.num (JSNumber.int 1)]), ("a", [JSValue.str "x"])]

/-! ## Varint lemmas -/

theorem varintGo_congr : ∀ (n f₁ f₂ : Nat), n ≤ f₁ → n ≤ f₂ →
    varintGo f₁ n = varintGo f₂ n := by
  intro n
  induction n using Nat.strong_induction_on with
  | _ n ih =>
    intro f₁ f₂ h₁ h₂
    match f₁, f₂ with
    | 0, 0 => rfl
    | 0, f₂ + 1 =>
      have hn : n = 0 := Nat.le_zero.mp h₁
      subst hn
      simp [varintGo]
    | f₁ + 1, 0 =>
      have hn : n = 0 := Nat.le_zero.mp h₂
      subst hn
      simp [varintGo]
    | f₁ + 1, f₂ + 1 =>
      by_cases h : n < 128
      · simp [varintGo, h]
      · have hdivlt : n / 128 < n := Nat.div_lt_self (by omega) (by omega)
        simp only [varintGo, if_neg h]
        rw [ih (n / 128) hdivlt f₁ f₂ (by omega) (by omega)]

/-- The defining equation of `varint`. -/
theorem varint_eq (n : Nat) : varint n = if n < 128 then [n] else (n % 128 + 128) :: varint (n / 128) := by
  by_cases h : n < 128
  · match n, h with
    | 0, _ => simp [varint, varintGo]
    | n + 1, h => simp [varint, varintGo, h]
  · have h0 : 0 < n := by omega
    have hdivlt : n / 128 < n := Nat.div_lt_self h0 (by omega)
    obtain ⟨f, hf⟩ : ∃ f, n = f + 1 := ⟨n - 1, by omega⟩
    subst hf
    simp only [varint, varintGo, if_neg h]
    exact congrArg _ (varintGo_congr ((f + 1) / 128) f ((f + 1) / 128) (by omega) (le_refl _))

theorem varint_ne_nil (n : Nat) : varint n ≠ [] := by
  rw [varint_eq]
  by_cases h : n < 128 <;> simp [h]

theorem parseVarint_varint (n : Nat) (rest : List Nat) :
    parseVarint (varint n ++ rest) = some (n, rest) := by
  induction n using Nat.strong_induction_on with
  | _ n ih =>
    rw [varint_eq]
    by_cases h : n < 128
    · simp [h, parseVarint]
    · have hdivlt : n / 128 < n := Nat.div_lt_self (by omega) (by omega)
      have hb : ¬ (n % 128 + 128 < 128) := by omega
      simp only [if_neg h, List.cons_append, parseVarint, if_neg hb, ih (n / 128) hdivlt]
      have : n % 128 + 128 * (n / 128) = n := by omega
      simp [Nat.add_mod_right, this]

/-! ## Length-delimited field lemmas -/

theorem parseBytes_append (l rest : List Nat) :
    parseBytes l.length (l ++ rest) = some (l, rest) := by
  simp [parseBytes, List.take_left, List.drop_left]

theorem parseLenDelim_lenDelim (tag : Nat) (payload rest : List Nat) :
    parseLenDelim tag (lenDelim tag payload ++ rest) = some (payload, rest) := by
  simp [lenDelim, List.cons_append, List.append_assoc, parseLenDelim,
    parseVarint_varint, parseBytes_append]

theorem parseLenDelim_self (tag : Nat) (payload : List Nat) :
    parseLenDelim tag (lenDelim tag payload) = some (payload, []) := by
  have := parseLenDelim_lenDelim tag payload []
  simpa using this

theorem parseLenDelim_ne (tag t : Nat) (h : t ≠ tag) (rest : List Nat) :
    parseLenDelim tag (t :: rest) = none := by
  simp [parseLenDelim, h]

theorem parseLenDelim_lenDelim_ne (tag tag' : Nat) (h : tag' ≠ tag) (p : List Nat) :
    parseLenDelim tag (lenDelim tag' p) = none := by
  simp [lenDelim, parseLenDelim, h]

/-- `parseLenDelim_lenDelim` restated in the list normal form that
`simp [lenDelim]` produces, so it can rewrite inside unfolded loops. -/
theorem parseLenDelim_norm (tag : Nat) (p rest : List Nat) :
    parseLenDelim tag (tag :: (varint p.length ++ (p ++ rest))) = some (p, rest) := by
  have h := parseLenDelim_lenDelim tag p rest
  simpa [lenDelim] using h

/-- Expose the head byte of an appended length-delimited field without
disturbing its payload. -/
theorem cons_norm (tag : Nat) (p rest : List Nat) :
    lenDelim tag p ++ rest = tag :: (varint p.length ++ (p ++ rest)) := by
  simp [lenDelim]

/-! ## Packed-run and message round-trip lemmas -/

theorem length_le_flatten : ∀ (l : List (List Nat)), (∀ x ∈ l, x ≠ []) →
    l.length ≤ l.flatten.length := by
  intro l
  induction l with
  | nil => simp
  | cons x xs ih =>
    intro h
    simp only [List.flatten_cons, List.length_append, List.length_cons]
    have hx : x ≠ [] := h x (by simp)
    have h1 : 1 ≤ x.length := by
      cases x with
      | nil => simp at hx
      | cons a t => simp
    have h2 := ih (fun y hy => h y (by simp [hy]))
    omega

theorem parseVarints_flatten : ∀ (ns : List Nat) (fuel : Nat), ns.length ≤ fuel →
    parseVarints fuel ((ns.map varint).flatten) = some ns := by
  intro ns
  induction ns with
  | nil => intro fuel h; simp [parseVarints]
  | cons n ns ih =>
    intro fuel h
    obtain ⟨f, rfl⟩ : ∃ f, fuel = f + 1 := ⟨fuel - 1, by simp at h; omega⟩
    simp only [List.map_cons, List.flatten_cons]
    obtain ⟨b, t, hbt⟩ := List.exists_cons_of_ne_nil (varint_ne_nil n)
    have hsplit : varint n ++ (ns.map varint).flatten = b :: (t ++ (ns.map varint).flatten) := by
      rw [hbt, List.cons_append]
    rw [hsplit]
    simp only [parseVarints]
    rw [← hsplit, parseVarint_varint]
    simp [ih f (by simp at h; omega)]

theorem parseFloats_flatten : ∀ (bits : List Nat) (fuel : Nat), bits.length ≤ fuel →
    parseFloats fuel ((bits.map le4).flatten) = some (bits.map (· % 2 ^ 32)) := by
  intro bits
  induction bits with
  | nil => intro fuel h; simp [parseFloats]
  | cons x xs ih =>
    intro fuel h
    obtain ⟨f, rfl⟩ : ∃ f, fuel = f + 1 := ⟨fuel - 1, by simp at h; omega⟩
    simp only [List.map_cons, List.flatten_cons, le4, List.cons_append, List.nil_append]
    simp only [parseFloats]
    rw [ih f (by simp at h; omega)]
    have harith : x % 256 + 256 * (x / 256 % 256) + 65536 * (x / 65536 % 256) +
        16777216 * (x / 16777216 % 256) = x % 2 ^ 32 := by
      have h32 : (2 : Nat) ^ 32 = 4294967296 := by norm_num
      rw [h32]
      omega
    simp [harith]

theorem parseBytesValues_encode : ∀ (vs : List (List Nat)) (fuel : Nat), vs.length ≤ fuel →
    parseBytesValues fuel (encodeBytesList vs) = some vs := by
  intro vs
  induction vs with
  | nil => intro fuel h; simp [encodeBytesList, parseBytesValues]
  | cons v vs ih =>
    intro fuel h
    obtain ⟨f, rfl⟩ : ∃ f, fuel = f + 1 := ⟨fuel - 1, by simp at h; omega⟩
    simp only [encodeBytesList, List.map_cons, List.flatten_cons]
    rw [cons_norm]
    simp only [parseBytesValues]
    rw [parseLenDelim_norm]
    have hrec := ih f (by simp at h; omega)
    simp only [encodeBytesList] at hrec
    simp [hrec]

theorem encodeFeature_ne_nil (f : Feature) : encodeFeature f ≠ [] := by
  cases f <;> simp [encodeFeature, lenDelim]

theorem parseFeature_encode (f : Feature) :
    parseFeature (encodeFeature f) = some (featureImage f) := by
  cases f with
  | bytesList vs =>
    have hfuel : vs.length ≤ (encodeBytesList vs).length := by
      have := length_le_flatten (vs.map (fun b => lenDelim 10 b))
        (by intro x hx; simp only [List.mem_map] at hx; obtain ⟨b, _, rfl⟩ := hx; simp [lenDelim])
      simpa [encodeBytesList] using this
    simp only [encodeFeature, parseFeature, parseLenDelim_self]
    simp [parseBytesValues_encode vs _ hfuel, featureImage]
  | floatList bits =>
    cases bits with
    | nil => decide
    | cons x xs =>
      have hne : parseLenDelim 10 (encodeFeature (Feature.floatList (x :: xs))) = none := by
        simp [encodeFeature, lenDelim, parseLenDelim]
      have hfuel : (x :: xs).length ≤ (((x :: xs).map le4).flatten).length := by
        have := length_le_flatten ((x :: xs).map le4)
          (by intro y hy; simp only [List.mem_map] at hy; obtain ⟨b, _, rfl⟩ := hy; simp [le4])
        simpa using this
      have hfloats := parseFloats_flatten (x :: xs) _ hfuel
      simp only [parseFeature, encodeFeature, parseLenDelim_lenDelim_ne 10 18 (by decide),
        parseLenDelim_self, eq_self_iff_true, if_true, encodeFloatList, List.isEmpty_cons,
        Bool.false_eq_true, if_false, hfloats, Option.map_some', featureImage]
  | int64List vs =>
    cases vs with
    | nil => decide
    | cons x xs =>
      have hfuel : (((x :: xs).map wire64)).length ≤
          ((((x :: xs).map wire64).map varint).flatten).length := by
        have := length_le_flatten (((x :: xs).map wire64).map varint)
          (by intro y hy; simp only [List.mem_map] at hy; obtain ⟨b, _, rfl⟩ := hy
              exact varint_ne_nil b)
        simpa using this
      have hvar : parseVarints ((((x :: xs).map varint64).flatten).length)
          (((x :: xs).map varint64).flatten) = some ((x :: xs).map wire64) := by
        have hmm : (x :: xs).map varint64 = ((x :: xs).map wire64).map varint := by
          simp [varint64, List.map_map, Function.comp]
        rw [hmm]
        exact parseVarints_flatten _ _ hfuel
      simp only [parseFeature, encodeFeature, parseLenDelim_lenDelim_ne 10 26 (by decide),
        parseLenDelim_lenDelim_ne 18 26 (by decide), parseLenDelim_self, eq_self_iff_true,
        if_true, encodeInt64List, List.isEmpty_cons, Bool.false_eq_true, if_false, hvar,
        Option.map_some', featureImage]
      simp [List.map_map, Function.comp]

theorem parseFeatureRecords_encode : ∀ (fs : List Feature) (fuel : Nat), fs.length ≤ fuel →
    parseFeatureRecords fuel (encodeFeatureList fs) = some (fs.map featureImage) := by
  intro fs
  induction fs with
  | nil => intro fuel h; simp [encodeFeatureList, parseFeatureRecords]
  | cons f fs ih =>
    intro fuel h
    obtain ⟨fu, rfl⟩ : ∃ fu, fuel = fu + 1 := ⟨fuel - 1, by simp at h; omega⟩
    simp only [encodeFeatureList, List.map_cons, List.flatten_cons]
    rw [cons_norm]
    simp only [parseFeatureRecords]
    rw [parseLenDelim_norm]
    have hrec := ih fu (by simp at h; omega)
    simp only [encodeFeatureList] at hrec
    simp [parseFeature_encode, hrec]

theorem parseEntry_encode (k : String) (fs : List Feature) :
    parseEntry (lenDelim 10 (utf8Bytes k) ++ lenDelim 18 (encodeFeatureList fs)) =
      some (utf8Bytes k, fs.map featureImage) := by
  simp only [parseEntry, parseLenDelim_lenDelim, parseLenDelim_self, if_pos rfl]
  have hfuel : fs.length ≤ (encodeFeatureList fs).length := by
    have := length_le_flatten (fs.map (fun f => lenDelim 10 (encodeFeature f)))
      (by intro x hx; simp only [List.mem_map] at hx; obtain ⟨b, _, rfl⟩ := hx; simp [lenDelim])
    simpa [encodeFeatureList] using this
  rw [parseFeatureRecords_encode fs _ hfuel]
  rfl

theorem parseEntries_encode : ∀ (m : List (String × List Feature)) (fuel : Nat),
    m.length ≤ fuel →
    parseEntries fuel ((m.map entryBytes).flatten) =
      some (m.map (fun kv => (utf8Bytes kv.1, kv.2.map featureImage))) := by
  intro m
  induction m with
  | nil => intro fuel h; simp [parseEntries]
  | cons kv m ih =>
    intro fuel h
    obtain ⟨k, fs⟩ := kv
    obtain ⟨fu, rfl⟩ : ∃ fu, fuel = fu + 1 := ⟨fuel - 1, by simp at h; omega⟩
    simp only [List.map_cons, List.flatten_cons, entryBytes]
    rw [cons_norm]
    simp only [parseEntries]
    rw [parseLenDelim_norm]
    have hrec := ih fu (by simp at h; omega)
    simp [parseEntry_encode, hrec]

/-- The byte-level round trip at the built-feature-map level: decoding
the serialized envelope recovers every key (as its UTF-8 bytes) and
every record in order. -/
theorem decode_encodeSequenceExample (m : List (String × List Feature)) :
    decodeSequenceExample (encodeSequenceExample m) =
      some (m.map (fun kv => (utf8Bytes kv.1, kv.2.map featureImage))) := by
  simp only [decodeSequenceExample, encodeSequenceExample, parseLenDelim_self, if_pos rfl]
  have hfuel : m.length ≤ ((m.map entryBytes).flatten).length := by
    have := length_le_flatten (m.map entryBytes)
      (by intro x hx; simp only [List.mem_map] at hx; obtain ⟨b, _, rfl⟩ := hx
          simp [entryBytes, lenDelim])
    simpa using this
  exact parseEntries_encode m _ hfuel

/-! ## Builder lemmas: success and failure of the type dispatch -/

theorem except_bind_ok {ε α β : Type} (a : α) (f : α → Except ε β) :
    (Except.ok a : Except ε α) >>= f = f a := rfl

theorem except_bind_error {ε α β : Type} (e : ε) (f : α → Except ε β) :
    (Except.error e : Except ε α) >>= f = .error e := rfl

theorem except_map_ok {ε α β : Type} (f : α → β) (a : α) :
    Except.map f (Except.ok a : Except ε α) = .ok (f a) := rfl

theorem except_map_error {ε α β : Type} (f : α → β) (e : ε) :
    Except.map f (Except.error e : Except ε α) = .error e := rfl

theorem buildFeature_of_supported (k : String) (v : JSValue) (h : v.supported = true) :
    buildFeature k v = .ok (featureOfValue v) := by
  cases v with
  | str s => rfl
  | num n => by_cases hn : n.isInteger <;> simp [buildFeature, featureOfValue, hn]
  | buf b => rfl
  | other t => simp [JSValue.supported] at h

theorem buildFeatureList_of_supported (k : String) : ∀ (vs : List JSValue),
    vs.all (fun v => v.supported) = true →
    buildFeatureList k vs = .ok (vs.map featureOfValue) := by
  intro vs
  induction vs with
  | nil => intro h; rfl
  | cons v vs ih =>
    intro h
    simp only [List.all_cons, Bool.and_eq_true] at h
    simp [buildFeatureList, buildFeature_of_supported k v h.1, ih h.2, except_bind_ok]

theorem buildFeatureMap_of_allSupported : ∀ (input : List (String × List JSValue)),
    allSupported input = true →
    buildFeatureMap input = .ok (pureMap input) := by
  intro input
  induction input with
  | nil => intro h; rfl
  | cons kv rest ih =>
    intro h
    obtain ⟨k, vs⟩ := kv
    simp only [allSupported, List.all_cons, Bool.and_eq_true] at h
    have h2 : allSupported rest = true := by simpa [allSupported] using h.2
    simp [buildFeatureMap, buildFeatureList_of_supported k vs h.1, ih h2, pureMap, except_bind_ok]

theorem buildSequenceExample_of_allSupported (input : List (String × List JSValue))
    (h : allSupported input = true) :
    buildSequenceExample input = .ok (encodeSequenceExample (pureMap input)) := by
  simp [buildSequenceExample, buildFeatureMap_of_allSupported input h, except_map_ok]

theorem firstUnsupportedIn_none (k : String) : ∀ (vs : List JSValue),
    firstUnsupportedIn k vs = none → vs.all (fun v => v.supported) = true := by
  intro vs
  induction vs with
  | nil => intro _; rfl
  | cons v vs ih =>
    intro h
    by_cases hv : v.supported
    · simp only [firstUnsupportedIn, if_pos hv] at h
      simp [hv, ih h]
    · simp [firstUnsupportedIn, hv] at h

theorem firstUnsupported_none : ∀ (input : List (String × List JSValue)),
    firstUnsupported input = none → allSupported input = true := by
  intro input
  induction input with
  | nil => intro _; rfl
  | cons kv rest ih =>
    obtain ⟨k, vs⟩ := kv
    intro h
    simp only [firstUnsupported] at h
    match hin : firstUnsupportedIn k vs with
    | some e => rw [hin] at h; simp at h
    | none =>
      rw [hin] at h
      simp only [allSupported, List.all_cons, Bool.and_eq_true]
      exact ⟨firstUnsupportedIn_none k vs hin, by simpa [allSupported] using ih h⟩

theorem buildFeatureList_error_of_first (k : String) : ∀ (vs : List JSValue) (p : String × String),
    firstUnsupportedIn k vs = some p →
    buildFeatureList k vs = .error (.unsupportedValueType p.1 p.2) := by
  intro vs
  induction vs with
  | nil => intro p h; simp [firstUnsupportedIn] at h
  | cons v vs ih =>
    intro p h
    by_cases hv : v.supported
    · simp only [firstUnsupportedIn, if_pos hv] at h
      simp [buildFeatureList, buildFeature_of_supported k v hv, ih p h, except_bind_ok, except_bind_error]
    · simp only [firstUnsupportedIn, if_neg hv] at h
      cases v with
      | other t =>
        simp only [JSValue.typeofName] at h
        have hp : p = (k, t) := Option.some.inj h.symm
        subst hp
        simp [buildFeatureList, buildFeature, except_bind_error]
      | str s => simp [JSValue.supported] at hv
      | num n => simp [JSValue.supported] at hv
      | buf b => simp [JSValue.supported] at hv

theorem buildFeatureMap_error_of_first : ∀ (input : List (String × List JSValue)) (p : String × String),
    firstUnsupported input = some p →
    buildFeatureMap input = .error (.unsupportedValueType p.1 p.2) := by
  intro input
  induction input with
  | nil => intro p h; simp [firstUnsupported] at h
  | cons kv rest ih =>
    obtain ⟨k, vs⟩ := kv
    intro p h
    simp only [firstUnsupported] at h
    match hin : firstUnsupportedIn k vs with
    | some e =>
      rw [hin] at h
      simp only [Option.some.injEq] at h
      subst h
      simp [buildFeatureMap, buildFeatureList_error_of_first k vs e hin, except_bind_error]
    | none =>
      rw [hin] at h
      have hok := buildFeatureList_of_supported k vs (firstUnsupportedIn_none k vs hin)
      simp [buildFeatureMap, hok, ih p h, except_bind_ok, except_bind_error]

theorem allSupported_iff (input : List (String × List JSValue)) :
    allSupported input = true ↔ ∀ kv ∈ input, ∀ v ∈ kv.2, v.supported = true := by
  simp [allSupported, List.all_eq_true]

theorem allSupported_of_ok (input : List (String × List JSValue)) (b : List Nat)
    (h : buildSequenceExample input = .ok b) : allSupported input = true := by
  match hfu : firstUnsupported input with
  | none => exact firstUnsupported_none input hfu
  | some p =>
    have herr := buildFeatureMap_error_of_first input p hfu
    simp [buildSequenceExample, herr, except_map_error] at h

theorem ok_bytes_eq (input : List (String × List JSValue)) (b : List Nat)
    (h : buildSequenceExample input = .ok b) :
    b = encodeSequenceExample (pureMap input) := by
  have hs := allSupported_of_ok input b h
  have h2 := buildSequenceExample_of_allSupported input hs
  rw [h] at h2
  exact Except.ok.inj h2

/-! ## Relating the built records to the spec's round-trip image -/

theorem int64OfWire_wire64 (m : Int) (h1 : -(2 ^ 63) ≤ m) (h2 : m < 2 ^ 63) :
    int64OfWire (wire64 m) = m := by
  simp only [int64OfWire, wire64]
  have e64 : (2 : Int) ^ 64 = 18446744073709551616 := by norm_num
  have e63n : (2 : Nat) ^ 63 = 9223372036854775808 := by norm_num
  have e63 : (2 : Int) ^ 63 = 9223372036854775808 := by norm_num
  rw [e64, e63n]
  rw [e63] at h1 h2
  split_ifs with hlt
  · omega
  · omega

theorem featureImage_featureOfValue (v : JSValue) (hsv : v.supported = true)
    (hrv : okInt64 v = true) : featureImage (featureOfValue v) = jsValueImage v := by
  cases v with
  | str s => rfl
  | buf b => rfl
  | other t => simp [JSValue.supported] at hsv
  | num n =>
    cases n with
    | int m =>
      have hb : -(2 ^ 63 : Int) ≤ m ∧ m < 2 ^ 63 := by
        simpa [okInt64] using hrv
      simp only [featureOfValue, JSNumber.isInteger, if_true, featureImage, jsValueImage,
        JSNumber.intValue, List.map_cons, List.map_nil]
      rw [int64OfWire_wire64 m hb.1 hb.2]
    | frac b =>
      simp only [featureOfValue, JSNumber.isInteger, Bool.false_eq_true, if_false,
        featureImage, jsValueImage, JSNumber.float32Bits, List.map_cons, List.map_nil]
      have e32 : (2 : Nat) ^ 32 = 4294967296 := by norm_num
      rw [e32]
      congr 2
      omega
    | nan => decide
    | inf => decide
    | negInf => decide

theorem inputImage_eq_image_of_pureMap (input : List (String × List JSValue))
    (hs : allSupported input = true) (hr : allInt64InRange input = true) :
    (pureMap input).map (fun kv => (utf8Bytes kv.1, kv.2.map featureImage)) =
      inputImage input := by
  have hs' := (allSupported_iff input).mp hs
  have hr' : ∀ kv ∈ input, ∀ v ∈ kv.2, okInt64 v = true := by
    simpa [allInt64InRange, List.all_eq_true] using hr
  simp only [pureMap, inputImage, List.map_map]
  apply List.map_congr_left
  intro kv hkv
  simp only [Function.comp]
  congr 1
  rw [List.map_map]
  apply List.map_congr_left
  intro v hv
  exact featureImage_featureOfValue v (hs' kv hkv v hv) (hr' kv hkv v hv)

/-! ## The top-level field scan of an encoded envelope -/

theorem topLevelFields_encode (m : List (String × List Feature)) :
    topLevelFields (encodeSequenceExample m) = some [2] := by
  suffices h : ∀ body : List Nat, topLevelFieldsLoop
      (18 :: (varint body.length ++ body)).length
      (18 :: (varint body.length ++ body)) = some [2] by
    exact h ((m.map entryBytes).flatten)
  intro body
  have hpb : parseBytes body.length body = some (body, []) := by
    simpa using parseBytes_append body []
  simp only [List.length_cons]
  simp [topLevelFieldsLoop, parseVarint, parseVarint_varint, hpb]

/-! ## `toHex` helper lemmas -/

theorem toHex_length : ∀ (bs : List Nat), (toHex bs).length = 2 * bs.length := by
  intro bs
  induction bs with
  | nil => rfl
  | cons b t ih =>
    have hb : (byteToHex b).length = 2 := rfl
    simp only [toHex, String.length_append, List.length_cons, hb, ih]
    omega

theorem hexDigitChar_mem : ∀ n, n < 16 → hexDigitChar n ∈ ("0123456789abcdef").data := by
  decide

theorem toHex_mem_hex : ∀ (bs : List Nat), (∀ b ∈ bs, b < 256) →
    ∀ c ∈ (toHex bs).data, c ∈ ("0123456789abcdef").data := by
  intro bs
  induction bs with
  | nil =>
    intro _ c hc
    have : (toHex []).data = [] := rfl
    rw [this] at hc
    simp at hc
  | cons b t ih =>
    intro h c hc
    have hb : b < 256 := h b (by simp)
    have ht : ∀ x ∈ t, x < 256 := fun x hx => h x (by simp [hx])
    simp only [toHex, String.data_append] at hc
    rcases List.mem_append.mp hc with hc1 | hc2
    · have hdata : (byteToHex b).data = [hexDigitChar (b / 16), hexDigitChar (b % 16)] := rfl
      rw [hdata] at hc1
      simp only [List.mem_cons, List.not_mem_nil, or_false] at hc1
      rcases hc1 with rfl | rfl
      · exact hexDigitChar_mem (b / 16) (by omega)
      · exact hexDigitChar_mem (b % 16) (by omega)
    · exact ih ht c hc2

/-! ## Claim theorems -/

/-- C1: encoding the single-feature input `{"ad_type": ["SC_CPCV_1"]}`
returns exactly the 30-byte sequence whose lowercase hex representation
is `121c0a1a0a0761645f74797065120f0a0d0a0b0a0953435f435043565f31`; the
leading byte `0x12` is the envelope's field-2 list-wrapper tag, so the
feature map is nested inside the list wrapper, not flattened onto the
envelope. -/
theorem c1_pinned_single_feature_bytes :
    buildSequenceExample [("ad_type", [JSValue.str "SC_CPCV_1"])] =
      .ok [0x12, 0x1c, 0x0a, 0x1a, 0x0a, 0x07, 0x61, 0x64, 0x5f, 0x74, 0x79, 0x70, 0x65,
           0x12, 0x0f, 0x0a, 0x0d, 0x0a, 0x0b, 0x0a, 0x09,
           0x53, 0x43, 0x5f, 0x43, 0x50, 0x43, 0x56, 0x5f, 0x31] ∧
    toHex [0x12, 0x1c, 0x0a, 0x1a, 0x0a, 0x07, 0x61, 0x64, 0x5f, 0x74, 0x79, 0x70, 0x65,
           0x12, 0x0f, 0x0a, 0x0d, 0x0a, 0x0b, 0x0a, 0x09,
           0x53, 0x43, 0x5f, 0x43, 0x50, 0x43, 0x56, 0x5f, 0x31] =
      "121c0a1a0a0761645f74797065120f0a0d0a0b0a0953435f435043565f31" ∧
    ([0x12, 0x1c, 0x0a, 0x1a, 0x0a, 0x07, 0x61, 0x64, 0x5f, 0x74, 0x79, 0x70, 0x65,
      0x12, 0x0f, 0x0a, 0x0d, 0x0a, 0x0b, 0x0a, 0x09,
      0x53, 0x43, 0x5f, 0x43, 0x50, 0x43, 0x56, 0x5f, 0x31] : List Nat).length = 30 :=
  ⟨rfl, rfl, rfl⟩

/-- C2: every supported value is classified by its runtime type exactly
as the spec's table prescribes — the dispatch succeeds and the produced
record satisfies `SpecKind` (string → byte-string kind with its UTF-8
bytes; integral number → 64-bit-integer kind; non-integral number →
32-bit-float kind; Buffer → byte-string kind verbatim). -/
theorem c2_type_classification (k : String) (v : JSValue) (hv : v.supported = true) :
    buildFeature k v = .ok (featureOfValue v) ∧ SpecKind v (featureOfValue v) := by
  refine ⟨buildFeature_of_supported k v hv, ?_⟩
  cases v with
  | str s => simp [SpecKind, featureOfValue]
  | num n => cases hn : n.isInteger <;> simp [featureOfValue, hn, SpecKind]
  | buf b => simp [SpecKind, featureOfValue]
  | other t => simp [JSValue.supported] at hv

/-- Witness for C2 at the spec's example `{"city": ["koppal"]}`. -/
theorem c2_type_classification_witness :
    buildFeature "city" (JSValue.str "koppal") = .ok (featureOfValue (JSValue.str "koppal")) ∧
    SpecKind (JSValue.str "koppal") (featureOfValue (JSValue.str "koppal")) :=
  c2_type_classification "city" (JSValue.str "koppal") (by rfl)

/-- C3: an input holding an unsupported value under some key makes the
encode call fail — it returns no byte sequence at all — and the raised
error is `UnsupportedValueType` carrying the offending key and the
observed `typeof` name (the first such pair in iteration order, which is
where the throw happens, before any serialization). -/
theorem c3_unsupported_value_rejected (input : List (String × List JSValue)) :
    ((∃ kv ∈ input, ∃ v ∈ kv.2, v.supported = false) →
      (buildSequenceExample input).toOption = none) ∧
    (∀ k t, firstUnsupported input = some (k, t) →
      buildSequenceExample input = .error (.unsupportedValueType k t)) := by
  constructor
  · intro hbad
    cases hfu : firstUnsupported input with
    | some p =>
      have herr := buildFeatureMap_error_of_first input p hfu
      simp [buildSequenceExample, herr, except_map_error, Except.toOption]
    | none =>
      have hs := (allSupported_iff input).mp (firstUnsupported_none input hfu)
      obtain ⟨kv, hkv, v, hv, hbad'⟩ := hbad
      rw [hs kv hkv v hv] at hbad'
      simp at hbad'
  · intro k t hfu
    have herr := buildFeatureMap_error_of_first input (k, t) hfu
    simp [buildSequenceExample, herr, except_map_error]

/-- Witness for C3 at the spec's rejection example `{"bad": [{}]}`. -/
theorem c3_unsupported_value_rejected_witness :
    buildSequenceExample [("bad", [JSValue.other "object"])] =
      .error (.unsupportedValueType "bad" "object") :=
  (c3_unsupported_value_rejected [("bad", [JSValue.other "object"])]).2 "bad" "object" (by rfl)

/-- C4: for every well-formed input (all values supported, integral
values inside the signed-64-bit range that JavaScript safe integers
always satisfy), the encode succeeds and decoding its output with a
conformant decoder for the same schema yields exactly `inputImage`:
the same feature names (as their UTF-8 bytes) in the same order, one
record per input value in input order, string and Buffer content
byte-exact, integers exact, and floats equal to their documented
single-precision narrowing. -/
theorem c4_roundTrip (input : List (String × List JSValue))
    (hs : allSupported input = true) (hr : allInt64InRange input = true) :
    Except.map decodeSequenceExample (buildSequenceExample input) =
      .ok (some (inputImage input)) := by
  rw [buildSequenceExample_of_allSupported input hs, except_map_ok,
    decode_encodeSequenceExample, inputImage_eq_image_of_pureMap input hs hr]

/-- Witness for C4 at the spec's multi-value example
`{"tags": ["sports", "news", "entertainment"]}`: the decode returns
exactly three byte-string records in input order under that key. -/
theorem c4_roundTrip_witness :
    Except.map decodeSequenceExample
      (buildSequenceExample [("tags", [JSValue.str "sports", JSValue.str "news",
        JSValue.str "entertainment"])]) =
      .ok (some [(utf8Bytes "tags",
        [DFeature.bytes [utf8Bytes "sports"], DFeature.bytes [utf8Bytes "news"],
         DFeature.bytes [utf8Bytes "entertainment"]])]) := by
  have h := c4_roundTrip [("tags", [JSValue.str "sports", JSValue.str "news",
    JSValue.str "entertainment"])] (by rfl) (by rfl)
  simpa [inputImage, jsValueImage] using h

set_option maxRecDepth 8192 in
/-- C5 counterexample: the claim says a key whose value list mixes kinds
(here a string and an integer under "k") must make encode fail, but the
encoder succeeds, returning the 23-byte sequence below — a byte-string
record followed by an integer record under the single key. -/
theorem c5_mixed_kinds_counterexample :
    buildSequenceExample [("k", [JSValue.str "a", JSValue.num (JSNumber.int 1)])] =
      .ok [0x12, 0x15, 0x0a, 0x13, 0x0a, 0x01, 0x6b, 0x12, 0x0e, 0x0a, 0x05, 0x0a, 0x03,
           0x0a, 0x01, 0x61, 0x0a, 0x05, 0x1a, 0x03, 0x0a, 0x01, 0x01] :=
  rfl

/-- C5 amended: the encoder performs no homogeneity check — a key whose
list mixes a string and an integer is accepted, each value independently
classified in order (one byte-string record, then one integer record). -/
theorem c5_mixed_kinds_accepted (k : String) (s : String) (m : Int) :
    buildSequenceExample [(k, [JSValue.str s, JSValue.num (JSNumber.int m)])] =
      .ok (encodeSequenceExample [(k, [Feature.bytesList [utf8Bytes s],
        Feature.int64List [m]])]) := by
  simp [buildSequenceExample, buildFeatureMap, buildFeatureList, buildFeature,
    JSNumber.isInteger, JSNumber.intValue, except_bind_ok, except_map_ok, pure, Except.pure]

/-- C6: in this pure embedding encode is a function of its input, so
re-encoding the identical input gives identical bytes; for two insertion
orders of the same logical map (a permutation of entries) both encodes
succeed, and each output is the field-2 envelope header around the
per-key entry blocks — the two block lists are permutations of each
other, so outputs differ only in the relative byte position of whole map
entries, never in a key's block content (hence never in value order
within a key), and have equal total length. -/
theorem c6_determinism_modulo_map_order (input₁ input₂ : List (String × List JSValue))
    (b₁ : List Nat) (hperm : input₁.Perm input₂)
    (h1 : buildSequenceExample input₁ = .ok b₁) :
    buildSequenceExample input₂ = .ok (encodeSequenceExample (pureMap input₂)) ∧
    (blocksOf input₁).Perm (blocksOf input₂) ∧
    b₁ = 18 :: (varint (blocksOf input₁).flatten.length ++ (blocksOf input₁).flatten) ∧
    encodeSequenceExample (pureMap input₂) =
      18 :: (varint (blocksOf input₂).flatten.length ++ (blocksOf input₂).flatten) ∧
    b₁.length = (encodeSequenceExample (pureMap input₂)).length := by
  have hs1 := allSupported_of_ok input₁ b₁ h1
  have hs2 : allSupported input₂ = true := by
    rw [allSupported_iff] at hs1 ⊢
    intro kv hkv
    exact hs1 kv (hperm.mem_iff.mpr hkv)
  have hb1 := ok_bytes_eq input₁ b₁ h1
  have hpm : (pureMap input₁).Perm (pureMap input₂) := hperm.map _
  have hblocks : (blocksOf input₁).Perm (blocksOf input₂) := hpm.map _
  have hflat : (blocksOf input₁).flatten.length = (blocksOf input₂).flatten.length := by
    have hsum := (hblocks.map List.length).sum_eq
    simpa [List.length_flatten] using hsum
  refine ⟨buildSequenceExample_of_allSupported input₂ hs2, hblocks, ?_, rfl, ?_⟩
  · rw [hb1]; rfl
  · rw [hb1]
    simp only [blocksOf] at hflat
    simp only [encodeSequenceExample, lenDelim, List.length_cons, List.length_append]
    rw [hflat]

/-- Witness for C6 at the two insertion orders of the two-key map
`{"a": ["x"], "b": [1]}`. -/
theorem c6_determinism_modulo_map_order_witness :
    buildSequenceExample exInputB = .ok (encodeSequenceExample (pureMap exInputB)) ∧
    (blocksOf exInputA).Perm (blocksOf exInputB) ∧
    encodeSequenceExample (pureMap exInputA) =
      18 :: (varint (blocksOf exInputA).flatten.length ++ (blocksOf exInputA).flatten) ∧
    encodeSequenceExample (pureMap exInputB) =
      18 :: (varint (blocksOf exInputB).flatten.length ++ (blocksOf exInputB).flatten) ∧
    (encodeSequenceExample (pureMap exInputA)).length =
      (encodeSequenceExample (pureMap exInputB)).length :=
  c6_determinism_modulo_map_order exInputA exInputB
    (encodeSequenceExample (pureMap exInputA)) (by decide) (by rfl)

/-- C7: `toHex` is total and pure — for every byte sequence it returns
exactly two hex characters per byte (so length `2 * n`), every character
drawn from the lowercase alphabet `0123456789abcdef`, with no separators
or prefix; on `[]` it returns `""` and on `[0x12, 0x1c]` it returns
`"121c"`. -/
theorem c7_toHex_contract (bs : List Nat) (h : ∀ b ∈ bs, b < 256) :
    (toHex bs).length = 2 * bs.length ∧
    (∀ c ∈ (toHex bs).data, c ∈ ("0123456789abcdef").data) ∧
    toHex [] = "" ∧
    toHex [0x12, 0x1c] = "121c" :=
  ⟨toHex_length bs, toHex_mem_hex bs h, rfl, rfl⟩

/-- Witness for C7 at the spec's example `[0x12, 0x1c]`. -/
theorem c7_toHex_contract_witness :
    (toHex [0x12, 0x1c]).length = 2 * ([0x12, 0x1c] : List Nat).length ∧
    (∀ c ∈ (toHex [0x12, 0x1c]).data, c ∈ ("0123456789abcdef").data) ∧
    toHex [] = "" ∧
    toHex [0x12, 0x1c] = "121c" :=
  c7_toHex_contract [0x12, 0x1c] (by decide)

/-- C8: a successful encode never populates the envelope's context
field — the generic top-level field scan of the output sees exactly one
field, number 2 (the list wrapper), and in particular no field 1. -/
theorem c8_context_absent (input : List (String × List JSValue)) (b : List Nat)
    (h : buildSequenceExample input = .ok b) :
    topLevelFields b = some [2] := by
  rw [ok_bytes_eq input b h]
  exact topLevelFields_encode (pureMap input)

/-- Witness for C8 at the two-key example input. -/
theorem c8_context_absent_witness :
    topLevelFields (encodeSequenceExample (pureMap exInputA)) = some [2] :=
  c8_context_absent exInputA (encodeSequenceExample (pureMap exInputA)) (by rfl)

/-- C9: encoding the empty mapping does not fail: it returns exactly the
two bytes `[0x12, 0x00]` — the list-wrapper field present with an empty
payload, not omitted. -/
theorem c9_empty_input :
    buildSequenceExample [] = .ok [0x12, 0x00] :=
  rfl

/-- C10: every numeric value failing the runtime integer test — the
non-finite `NaN`, `Infinity` and `-Infinity` included — is encoded
successfully as a float-kind record (never integer-kind, never an
`UnsupportedValueType` error), both at the per-value dispatch and
through a full encode call. -/
theorem c10_nonInteger_numbers_float (k : String) (n : JSNumber) (h : n.isInteger = false) :
    buildFeature k (JSValue.num n) = .ok (.floatList [n.float32Bits]) ∧
    buildSequenceExample [(k, [JSValue.num n])] =
      .ok (encodeSequenceExample [(k, [Feature.floatList [n.float32Bits]])]) ∧
    buildFeature k (JSValue.num JSNumber.nan) = .ok (.floatList [0x7fc00000]) ∧
    buildFeature k (JSValue.num JSNumber.inf) = .ok (.floatList [0x7f800000]) ∧
    buildFeature k (JSValue.num JSNumber.negInf) = .ok (.floatList [0xff800000]) := by
  refine ⟨?_, ?_, rfl, rfl, rfl⟩
  · simp [buildFeature, h]
  · simp [buildSequenceExample, buildFeatureMap, buildFeatureList, buildFeature, h,
      except_bind_ok, except_map_ok, pure, Except.pure]

/-- Witness for C10 at `NaN`. -/
theorem c10_nonInteger_numbers_float_witness :
    buildFeature "x" (JSValue.num JSNumber.nan) = .ok (.floatList [0x7fc00000]) ∧
    buildSequenceExample [("x", [JSValue.num JSNumber.nan])] =
      .ok (encodeSequenceExample [("x", [Feature.floatList [0x7fc00000]])]) ∧
    buildFeature "x" (JSValue.num JSNumber.nan) = .ok (.floatList [0x7fc00000]) ∧
    buildFeature "x" (JSValue.num JSNumber.inf) = .ok (.floatList [0x7f800000]) ∧
    buildFeature "x" (JSValue.num JSNumber.negInf) = .ok (.floatList [0xff800000]) :=
  c10_nonInteger_numbers_float "x" JSNumber.nan rfl

end TFSE
